import Mathlib

/-!
Verification of the audiocipher tone-row decoder.

This file gives a shallow embedding of the decoding engine found in
`decoder.py`, `audiocipher_decoder.py` and `melody_decoder.py`, and proves
properties of that embedding.

Modelling conventions:
* Python strings of letters are modelled as `List Char`; pitch-name strings
  (such as "C#") are modelled as `String`.
* Python sets of words are modelled as `List (List Char)` with `∈` as the
  membership test; set union is modelled by list append (membership in the
  append is membership in either operand).
* Python dicts are modelled as insertion-ordered association lists, which is
  faithful to CPython's insertion-ordered dict semantics that the scripts
  rely on for output ordering.
* Calls into the external music21 library (`sc.pitchFromDegree`,
  `pitch.Pitch(...).getEnharmonic()`) are modelled as function parameters
  (`pfd : Nat → String`, `enh : String → Option String`), exactly as the
  Python functions receive the scale object / library as an ambient
  capability; `none` for `enh` models the exception branch.
-/

/-- A word (Python string over letters) is a list of characters. -/
abbrev Word := List Char

/-- The slice `decoded_chars[j:i]` (with `''.join` applied), as used by
`segment_into_words` in decoder.py line 199. -/
def strSlice (s : List Char) (j i : Nat) : List Char :=
  (s.drop j).take (i - j)

/-- Embedding of `max((len(word) for word in words), default=0)`
(decoder.py line 354): the maximum length of a member of the word set,
0 for the empty set. -/
def maxWordLength (W : List Word) : Nat :=
  W.foldr (fun w m => max w.length m) 0

/-- The proper prefixes of one word: `word[:i]` for `i in range(1, len(word))`
(decoder.py lines 106-108). -/
def prefixesOf (w : Word) : List Word :=
  (List.range' 1 (w.length - 1)).map (fun i => w.take i)

/-- Embedding of `build_prefix_set` (decoder.py lines 101-110): all proper
prefixes of all words in the given set. -/
def build_prefix_set (words : List Word) : List Word :=
  words.foldr (fun w acc => prefixesOf w ++ acc) []

/-- One iteration of the inner `for j in range(...)` loop body of
`segment_into_words` (decoder.py lines 197-204), updating the pending value
of `dp[i]` (the accumulator `acc`).  The final
`elif word in prefixes_set: continue` branch of the source is kept even
though both of its outcomes leave `dp[i]` unchanged. -/
def segUpdate (s : List Char) (W P : List Word) (dp : Nat → Option (List Word))
    (i : Nat) (acc : Option (List Word)) (j : Nat) : Option (List Word) :=
  match dp j with
  | none => acc
  | some pj =>
    let word := strSlice s j i
    if word ∈ W then
      match acc with
      | none => some (pj ++ [word])
      | some pcur => if pj.length + 1 < pcur.length then some (pj ++ [word]) else acc
    else if word ∈ P then acc else acc

/-- The inner loop `for j in range(max(0, i - max_word_length), i)` of
`segment_into_words`, computing the final value of `dp[i]` from the earlier
entries `dp[j]`.  `i - L` is truncated subtraction, so it equals
`max(0, i - L)`; the accumulator starts at `none` because `dp[i]` is still
at its initialisation value `None` when iteration `i` begins. -/
def segInner (s : List Char) (W P : List Word) (L : Nat)
    (dp : Nat → Option (List Word)) (i : Nat) : Option (List Word) :=
  (List.range' (i - L) (i - (i - L))).foldl (segUpdate s W P dp i) none

/-- The `dp` array of `segment_into_words` after the outer loop has run for
`i = 1 .. k`: `segTable s W P L k j` is the value of `dp[j]` at that point.
Entry `j` is written only at outer iteration `j`, which matches the source's
in-place array update. -/
def segTable (s : List Char) (W P : List Word) (L : Nat) : Nat → Nat → Option (List Word)
  | 0 => fun j => if j = 0 then some [] else none
  | k + 1 => fun j =>
      if j = k + 1 then segInner s W P L (segTable s W P L k) (k + 1)
      else segTable s W P L k j

/-- Embedding of `segment_into_words` (decoder.py lines 188-205, identical in
audiocipher_decoder.py lines 174-191): word-break dynamic programming,
returning `dp[n]`. -/
def segment_into_words (decoded_chars : List Char) (words_set prefixes_set : List Word)
    (max_word_length : Nat) : Option (List Word) :=
  segTable decoded_chars words_set prefixes_set max_word_length
    decoded_chars.length decoded_chars.length

/-- One iteration of the inner loop body of melody_decoder.py's
`segment_into_words` (lines 73-79): the membership test is
`word in english_words or word in all_names`, tested before `dp[j]`. -/
def segUpdateMd (s : List Char) (E N : List Word) (dp : Nat → Option (List Word))
    (i : Nat) (acc : Option (List Word)) (j : Nat) : Option (List Word) :=
  let word := strSlice s j i
  if word ∈ E ∨ word ∈ N then
    match dp j with
    | none => acc
    | some pj =>
      match acc with
      | none => some (pj ++ [word])
      | some pcur => if pj.length + 1 < pcur.length then some (pj ++ [word]) else acc
  else acc

/-- Inner loop of melody_decoder.py's segmenter. -/
def segInnerMd (s : List Char) (E N : List Word) (L : Nat)
    (dp : Nat → Option (List Word)) (i : Nat) : Option (List Word) :=
  (List.range' (i - L) (i - (i - L))).foldl (segUpdateMd s E N dp i) none

/-- The `dp` array of melody_decoder.py's segmenter after outer iterations
`1 .. k`. -/
def segTableMd (s : List Char) (E N : List Word) (L : Nat) : Nat → Nat → Option (List Word)
  | 0 => fun j => if j = 0 then some [] else none
  | k + 1 => fun j =>
      if j = k + 1 then segInnerMd s E N L (segTableMd s E N L k) (k + 1)
      else segTableMd s E N L k j

/-- Embedding of `segment_into_words` from melody_decoder.py (lines 69-80),
which takes the two word sets separately and has no prefix-set argument. -/
def segment_into_words_md (s : List Char) (english_words all_names : List Word)
    (max_word_length : Nat) : Option (List Word) :=
  segTableMd s english_words all_names max_word_length s.length s.length

/-- A decomposition of the string `s` into members of the word set `W`. -/
def IsDecomp (s : List Char) (W : List Word) (q : List Word) : Prop :=
  (∀ w ∈ q, w ∈ W) ∧ q.flatten = s

/-! ### Properties of the word-break dynamic program -/

theorem mem_segRange {i L j : Nat} :
    j ∈ List.range' (i - L) (i - (i - L)) ↔ i - L ≤ j ∧ j < i := by
  rw [List.mem_range'_1, Nat.add_sub_cancel' (Nat.sub_le i L)]

theorem segTable_gt (s : List Char) (W P : List Word) (L : Nat) :
    ∀ k j, k < j → segTable s W P L k j = none := by
  intro k
  induction k with
  | zero =>
    intro j hj
    have : j ≠ 0 := by omega
    simp [segTable, this]
  | succ k ih =>
    intro j hj
    have hne : j ≠ k + 1 := by omega
    simp only [segTable, if_neg hne]
    exact ih j (by omega)

theorem segTable_freeze (s : List Char) (W P : List Word) (L : Nat) :
    ∀ k j, j ≤ k → segTable s W P L k j = segTable s W P L j j := by
  intro k
  induction k with
  | zero =>
    intro j hj
    have : j = 0 := by omega
    rw [this]
  | succ k ih =>
    intro j hj
    rcases Nat.eq_or_lt_of_le hj with h | h
    · rw [h]
    · have hne : j ≠ k + 1 := by omega
      simp only [segTable, if_neg hne]
      exact ih j (by omega)

theorem segUpdate_some (s : List Char) (W P : List Word) (dp : Nat → Option (List Word))
    (i j : Nat) (acc : Option (List Word)) (p : List Word)
    (h : segUpdate s W P dp i acc j = some p) :
    acc = some p ∨
      ∃ pj, dp j = some pj ∧ strSlice s j i ∈ W ∧ p = pj ++ [strSlice s j i] := by
  unfold segUpdate at h
  cases hdp : dp j with
  | none => rw [hdp] at h; exact Or.inl h
  | some pj =>
    rw [hdp] at h
    simp only at h
    by_cases hw : strSlice s j i ∈ W
    · rw [if_pos hw] at h
      cases hacc : acc with
      | none =>
        rw [hacc] at h
        exact Or.inr ⟨pj, rfl, hw, (Option.some_injective _ h).symm⟩
      | some pcur =>
        rw [hacc] at h
        simp only at h
        by_cases hlt : pj.length + 1 < pcur.length
        · rw [if_pos hlt] at h
          exact Or.inr ⟨pj, rfl, hw, (Option.some_injective _ h).symm⟩
        · rw [if_neg hlt] at h
          exact Or.inl h
    · rw [if_neg hw, ite_self] at h
      exact Or.inl h

theorem segUpdate_le_acc (s : List Char) (W P : List Word) (dp : Nat → Option (List Word))
    (i j : Nat) (pa : List Word) :
    ∃ p, segUpdate s W P dp i (some pa) j = some p ∧ p.length ≤ pa.length := by
  unfold segUpdate
  cases hdp : dp j with
  | none => exact ⟨pa, rfl, Nat.le_refl _⟩
  | some pj =>
    simp only
    by_cases hw : strSlice s j i ∈ W
    · rw [if_pos hw]
      by_cases hlt : pj.length + 1 < pa.length
      · rw [if_pos hlt]
        exact ⟨pj ++ [strSlice s j i], rfl, by simp; omega⟩
      · rw [if_neg hlt]
        exact ⟨pa, rfl, Nat.le_refl _⟩
    · rw [if_neg hw, ite_self]
      exact ⟨pa, rfl, Nat.le_refl _⟩

theorem segUpdate_hit (s : List Char) (W P : List Word) (dp : Nat → Option (List Word))
    (i j : Nat) (acc : Option (List Word)) (pj : List Word)
    (hdp : dp j = some pj) (hw : strSlice s j i ∈ W) :
    ∃ p, segUpdate s W P dp i acc j = some p ∧ p.length ≤ pj.length + 1 := by
  unfold segUpdate
  rw [hdp]
  simp only
  rw [if_pos hw]
  cases acc with
  | none => exact ⟨pj ++ [strSlice s j i], rfl, by simp⟩
  | some pcur =>
    simp only
    by_cases hlt : pj.length + 1 < pcur.length
    · rw [if_pos hlt]
      exact ⟨pj ++ [strSlice s j i], rfl, by simp⟩
    · rw [if_neg hlt]
      exact ⟨pcur, rfl, by omega⟩

theorem segFold_sound (s : List Char) (W P : List Word) (dp : Nat → Option (List Word))
    (i : Nat) :
    ∀ (js : List Nat) (acc : Option (List Word)) (p : List Word),
      js.foldl (segUpdate s W P dp i) acc = some p →
      acc = some p ∨
        ∃ j ∈ js, ∃ pj, dp j = some pj ∧ strSlice s j i ∈ W ∧
          p = pj ++ [strSlice s j i] := by
  intro js
  induction js with
  | nil => intro acc p h; exact Or.inl h
  | cons j0 js ih =>
    intro acc p h
    rw [List.foldl_cons] at h
    rcases ih (segUpdate s W P dp i acc j0) p h with h1 | ⟨j, hj, pj, hdp, hw, hp⟩
    · rcases segUpdate_some s W P dp i j0 acc p h1 with h2 | ⟨pj, hdp, hw, hp⟩
      · exact Or.inl h2
      · exact Or.inr ⟨j0, List.mem_cons_self _ _, pj, hdp, hw, hp⟩
    · exact Or.inr ⟨j, List.mem_cons_of_mem _ hj, pj, hdp, hw, hp⟩

theorem segFold_le_acc (s : List Char) (W P : List Word) (dp : Nat → Option (List Word))
    (i : Nat) :
    ∀ (js : List Nat) (pa : List Word),
      ∃ p, js.foldl (segUpdate s W P dp i) (some pa) = some p ∧
        p.length ≤ pa.length := by
  intro js
  induction js with
  | nil => intro pa; exact ⟨pa, rfl, Nat.le_refl _⟩
  | cons j0 js ih =>
    intro pa
    obtain ⟨pb, hb, hble⟩ := segUpdate_le_acc s W P dp i j0 pa
    obtain ⟨p, hp, hple⟩ := ih pb
    refine ⟨p, ?_, Nat.le_trans hple hble⟩
    rw [List.foldl_cons, hb]
    exact hp

theorem segFold_hit (s : List Char) (W P : List Word) (dp : Nat → Option (List Word))
    (i : Nat) :
    ∀ (js : List Nat) (acc : Option (List Word)) (j : Nat) (pj : List Word),
      j ∈ js → dp j = some pj → strSlice s j i ∈ W →
      ∃ p, js.foldl (segUpdate s W P dp i) acc = some p ∧
        p.length ≤ pj.length + 1 := by
  intro js
  induction js with
  | nil => intro acc j pj hj; exact absurd hj (List.not_mem_nil _)
  | cons j0 js ih =>
    intro acc j pj hj hdp hw
    rw [List.foldl_cons]
    rcases List.mem_cons.mp hj with h | h
    · subst h
      obtain ⟨pb, hb, hble⟩ := segUpdate_hit s W P dp i j acc pj hdp hw
      rw [hb]
      obtain ⟨p, hp, hple⟩ := segFold_le_acc s W P dp i js pb
      exact ⟨p, hp, Nat.le_trans hple hble⟩
    · exact ih (segUpdate s W P dp i acc j0) j pj h hdp hw

theorem segFold_congr (s : List Char) (W P : List Word) (dp dpq : Nat → Option (List Word))
    (i : Nat) :
    ∀ (js : List Nat) (acc : Option (List Word)),
      (∀ j ∈ js, dp j = dpq j) →
      js.foldl (segUpdate s W P dp i) acc = js.foldl (segUpdate s W P dpq i) acc := by
  intro js
  induction js with
  | nil => intro acc _; rfl
  | cons j0 js ih =>
    intro acc h
    rw [List.foldl_cons, List.foldl_cons]
    have h0 : segUpdate s W P dp i acc j0 = segUpdate s W P dpq i acc j0 := by
      unfold segUpdate
      rw [h j0 (List.mem_cons_self _ _)]
    rw [h0]
    exact ih _ (fun j hj => h j (List.mem_cons_of_mem _ hj))

theorem seg_best_sound (s : List Char) (W P : List Word) (L : Nat) :
    ∀ i p, segTable s W P L i i = some p →
      p.flatten = s.take i ∧ ∀ w ∈ p, w ∈ W := by
  intro i
  induction i using Nat.strong_induction_on with
  | _ i ih =>
    cases i with
    | zero =>
      intro p h
      have hp : p = [] := by
        have : (some [] : Option (List Word)) = some p := by
          simpa [segTable] using h
        exact (Option.some_injective _ this).symm
      subst hp
      exact ⟨rfl, by intro w hw; exact absurd hw (List.not_mem_nil _)⟩
    | succ k =>
      intro p h
      have h' : (List.range' (k + 1 - L) (k + 1 - (k + 1 - L))).foldl
          (segUpdate s W P (segTable s W P L k) (k + 1)) none = some p := by
        simpa [segTable, segInner] using h
      rcases segFold_sound s W P (segTable s W P L k) (k + 1) _ none p h' with
        hceq | ⟨j, hj, pj, hdp, hw, hp⟩
      · exact absurd hceq (by simp)
      · obtain ⟨hjl, hju⟩ := mem_segRange.mp hj
        have hfr : segTable s W P L j j = some pj := by
          rw [← segTable_freeze s W P L k j (by omega)]
          exact hdp
        obtain ⟨hflat, hmem⟩ := ih j (by omega) pj hfr
        constructor
        · rw [hp, List.flatten_append]
          simp only [List.flatten_cons, List.flatten_nil, List.append_nil]
          rw [hflat, strSlice]
          have hk : j + (k + 1 - j) = k + 1 := by omega
          rw [← List.take_add, hk]
        · intro w hwmem
          rw [hp] at hwmem
          rcases List.mem_append.mp hwmem with h1 | h1
          · exact hmem w h1
          · have hweq : w = strSlice s j (k + 1) := by simpa using h1
            rw [hweq]
            exact hw

theorem seg_best_min (s : List Char) (W P : List Word) (L : Nat)
    (hL : ∀ w ∈ W, w.length ≤ L) :
    ∀ i, i ≤ s.length → ∀ q : List Word, (∀ w ∈ q, w ∈ W ∧ w ≠ []) →
      q.flatten = s.take i →
      ∃ p, segTable s W P L i i = some p ∧ p.length ≤ q.length := by
  intro i
  induction i using Nat.strong_induction_on with
  | _ i ih =>
    cases i with
    | zero =>
      intro _ q _ _
      exact ⟨[], by simp [segTable], Nat.zero_le _⟩
    | succ k =>
      intro hklen q hqmem hqflat
      rcases List.eq_nil_or_concat q with hq | ⟨A, w, hq⟩
      · exfalso
        rw [hq] at hqflat
        have : (List.take (k + 1) s).length = k + 1 := by
          rw [List.length_take]
          omega
        rw [← hqflat] at this
        simp at this
      · rw [hq, List.concat_eq_append] at hqflat
        rw [List.flatten_append] at hqflat
        simp only [List.flatten_cons, List.flatten_nil, List.append_nil] at hqflat
        have hwW : w ∈ W ∧ w ≠ [] := hqmem w (by rw [hq]; simp)
        have hwlen : w.length ≤ L := hL w hwW.1
        have hwpos : 0 < w.length := List.length_pos.mpr hwW.2
        have hlen : A.flatten.length + w.length = k + 1 := by
          have := congrArg List.length hqflat
          simp only [List.length_append, List.length_take] at this
          omega
        set j := k + 1 - w.length with hjdef
        have hjA : A.flatten.length = j := by omega
        have hAflat : A.flatten = s.take j := by
          have h1 : (A.flatten ++ w).take A.flatten.length = A.flatten :=
            List.take_left A.flatten w
          rw [hqflat] at h1
          rw [List.take_take] at h1
          have hmin : min A.flatten.length (k + 1) = j := by omega
          rw [hjA] at h1
          rw [show min j (k+1) = j by omega] at h1
          exact h1.symm
        have hslice : strSlice s j (k + 1) = w := by
          have h1 : (A.flatten ++ w).drop A.flatten.length = w :=
            List.drop_left A.flatten w
          rw [hqflat] at h1
          rw [List.drop_take] at h1
          rw [hjA] at h1
          exact h1.symm ▸ (by rw [strSlice])
        obtain ⟨pj, hpj, hpjle⟩ := ih j (by omega) (by omega) A
          (fun w' hw' => hqmem w' (by rw [hq]; simp [hw'])) hAflat
        have hdp : segTable s W P L k j = some pj := by
          rw [segTable_freeze s W P L k j (by omega)]
          exact hpj
        have hjmem : j ∈ List.range' (k + 1 - L) (k + 1 - (k + 1 - L)) :=
          mem_segRange.mpr ⟨by omega, by omega⟩
        obtain ⟨p, hp, hple⟩ := segFold_hit s W P (segTable s W P L k) (k + 1) _ none j pj
          hjmem hdp (hslice ▸ hwW.1)
        refine ⟨p, ?_, ?_⟩
        · simpa [segTable, segInner] using hp
        · rw [hq]
          simp only [List.concat_eq_append, List.length_append, List.length_cons,
            List.length_nil]
          omega

theorem maxWordLength_le (W : List Word) : ∀ w ∈ W, w.length ≤ maxWordLength W := by
  induction W with
  | nil => intro w hw; exact absurd hw (List.not_mem_nil _)
  | cons v W ih =>
    intro w hw
    rcases List.mem_cons.mp hw with h | h
    · subst h
      simp [maxWordLength]
    · have := ih w h
      simp only [maxWordLength, List.foldr_cons] at this ⊢
      omega

theorem flatten_filter_ne_nil (q : List Word) :
    (q.filter (fun w => w ≠ [])).flatten = q.flatten := by
  induction q with
  | nil => rfl
  | cons w q ih =>
    rcases eq_or_ne w [] with hw | hw
    · subst hw
      rw [List.filter_cons_of_neg (by simp), List.flatten_cons, ih, List.nil_append]
    · rw [List.filter_cons_of_pos (by simp [hw]), List.flatten_cons, List.flatten_cons, ih]

theorem segment_sound (s : List Char) (W P : List Word) (L : Nat) (p : List Word)
    (h : segment_into_words s W P L = some p) : IsDecomp s W p := by
  obtain ⟨hflat, hmem⟩ := seg_best_sound s W P L s.length p h
  exact ⟨hmem, by rw [hflat, List.take_length]⟩

theorem segment_complete (s : List Char) (W P : List Word) (q : List Word)
    (hq : IsDecomp s W q) :
    ∃ p, segment_into_words s W P (maxWordLength W) = some p ∧
      p.length ≤ q.length := by
  obtain ⟨hqmem, hqflat⟩ := hq
  obtain ⟨p, hp, hple⟩ := seg_best_min s W P (maxWordLength W) (maxWordLength_le W)
    s.length (Nat.le_refl _) (q.filter (fun w => w ≠ []))
    (by
      intro w hw
      rw [List.mem_filter] at hw
      exact ⟨hqmem w hw.1, by simpa using hw.2⟩)
    (by rw [flatten_filter_ne_nil, hqflat, List.take_length])
  exact ⟨p, hp, Nat.le_trans hple (List.length_filter_le _ _)⟩

theorem segment_none_iff (s : List Char) (W P : List Word) :
    segment_into_words s W P (maxWordLength W) = none ↔ ¬ ∃ q, IsDecomp s W q := by
  constructor
  · intro h ⟨q, hq⟩
    obtain ⟨p, hp, _⟩ := segment_complete s W P q hq
    rw [h] at hp
    exact Option.noConfusion hp
  · intro h
    cases hres : segment_into_words s W P (maxWordLength W) with
    | none => rfl
    | some p => exact absurd ⟨p, segment_sound s W P (maxWordLength W) p hres⟩ h

theorem segment_minimal (s : List Char) (W P : List Word) (p : List Word)
    (h : segment_into_words s W P (maxWordLength W) = some p) :
    ∀ q, IsDecomp s W q → p.length ≤ q.length := by
  intro q hq
  obtain ⟨p', hp', hle⟩ := segment_complete s W P q hq
  rw [h] at hp'
  rw [Option.some_injective _ hp']
  exact hle

/-! ### The prefix set does not influence the segmenter, and the two
segmenters agree -/

theorem segUpdate_P_irrel (s : List Char) (W P1 P2 : List Word)
    (dp : Nat → Option (List Word)) (i j : Nat) (acc : Option (List Word)) :
    segUpdate s W P1 dp i acc j = segUpdate s W P2 dp i acc j := by
  unfold segUpdate
  cases dp j with
  | none => rfl
  | some pj =>
    simp only
    by_cases hw : strSlice s j i ∈ W
    · rw [if_pos hw, if_pos hw]
    · rw [if_neg hw, if_neg hw, ite_self, ite_self]

theorem segTable_P_irrel (s : List Char) (W P1 P2 : List Word) (L : Nat) :
    ∀ k j, segTable s W P1 L k j = segTable s W P2 L k j := by
  intro k
  induction k with
  | zero => intro j; rfl
  | succ k ih =>
    intro j
    by_cases hj : j = k + 1
    · subst hj
      simp only [segTable, if_pos rfl, segInner]
      have hfold : ∀ (js : List Nat) (acc : Option (List Word)),
          js.foldl (segUpdate s W P1 (segTable s W P1 L k) (k + 1)) acc =
          js.foldl (segUpdate s W P2 (segTable s W P2 L k) (k + 1)) acc := by
        intro js
        induction js with
        | nil => intro acc; rfl
        | cons j0 js ihf =>
          intro acc
          rw [List.foldl_cons, List.foldl_cons]
          rw [segUpdate_P_irrel s W P1 P2 _ (k + 1) j0 acc]
          have hdp : segUpdate s W P2 (segTable s W P1 L k) (k + 1) acc j0 =
              segUpdate s W P2 (segTable s W P2 L k) (k + 1) acc j0 := by
            unfold segUpdate
            rw [ih j0]
          rw [hdp]
          exact ihf _
      exact hfold _ none
    · simp only [segTable, if_neg hj]
      exact ih j

theorem segment_P_irrel (s : List Char) (W P1 P2 : List Word) (L : Nat) :
    segment_into_words s W P1 L = segment_into_words s W P2 L :=
  segTable_P_irrel s W P1 P2 L s.length s.length

theorem segUpdate_eq_md (s : List Char) (W E N : List Word)
    (hiff : ∀ w : Word, w ∈ W ↔ (w ∈ E ∨ w ∈ N))
    (dp : Nat → Option (List Word)) (i j : Nat) (acc : Option (List Word)) :
    segUpdate s W E dp i acc j = segUpdateMd s E N dp i acc j := by
  unfold segUpdate segUpdateMd
  cases dp j with
  | none =>
    simp only
    rw [ite_self]
  | some pj =>
    simp only
    by_cases hw : strSlice s j i ∈ W
    · rw [if_pos hw, if_pos ((hiff _).mp hw)]
    · rw [if_neg hw, if_neg (fun hc => hw ((hiff _).mpr hc)), ite_self]

theorem segTable_eq_md (s : List Char) (W E N : List Word) (L : Nat)
    (hiff : ∀ w : Word, w ∈ W ↔ (w ∈ E ∨ w ∈ N)) :
    ∀ k j, segTable s W E L k j = segTableMd s E N L k j := by
  intro k
  induction k with
  | zero => intro j; rfl
  | succ k ih =>
    intro j
    by_cases hj : j = k + 1
    · subst hj
      simp only [segTable, segTableMd, if_pos rfl, segInner, segInnerMd]
      have hfold : ∀ (js : List Nat) (acc : Option (List Word)),
          js.foldl (segUpdate s W E (segTable s W E L k) (k + 1)) acc =
          js.foldl (segUpdateMd s E N (segTableMd s E N L k) (k + 1)) acc := by
        intro js
        induction js with
        | nil => intro acc; rfl
        | cons j0 js ihf =>
          intro acc
          rw [List.foldl_cons, List.foldl_cons]
          rw [segUpdate_eq_md s W E N hiff _ (k + 1) j0 acc]
          have hdp : segUpdateMd s E N (segTable s W E L k) (k + 1) acc j0 =
              segUpdateMd s E N (segTableMd s E N L k) (k + 1) acc j0 := by
            unfold segUpdateMd
            rw [ih j0]
          rw [hdp]
          exact ihf _
      exact hfold _ none
    · simp only [segTable, segTableMd, if_neg hj]
      exact ih j

theorem segment_eq_md (s : List Char) (W E N : List Word) (L : Nat)
    (hiff : ∀ w : Word, w ∈ W ↔ (w ∈ E ∨ w ∈ N)) :
    segment_into_words s W E L = segment_into_words_md s E N L :=
  segTable_eq_md s W E N L hiff s.length s.length

/-! ### Melody expansion (decode_melody, decoder.py lines 164-186) -/

/-- Lookup in the note-to-letters dict: `note_to_letters.get(n, [])`.  Keys of
the dict produced by `reverse_mapping` are distinct, so first-match lookup in
the association list is the dict lookup. -/
def lookupLetters : List (String × List Char) → String → List Char
  | [], _ => []
  | (k, ls) :: rest, n => if k = n then ls else lookupLetters rest n

/-- The letter candidates for one melody note (decoder.py lines 170-180):
direct lookup, then on an empty result the enharmonic fallback
`note_to_letters.get(p.getEnharmonic().name, [])`; a `none` from `enh`
models the exception branch, which sets `letters = []`. -/
def lettersFor (ntl : List (String × List Char)) (enh : String → Option String)
    (n : String) : List Char :=
  let ls := lookupLetters ntl n
  if ls = [] then
    match enh n with
    | some e => lookupLetters ntl e
    | none => []
  else ls

/-- The `possible_letters` accumulation loop of decode_melody: `none` models
the early `return []` taken at the first note whose letter list is empty. -/
def collectLetters (ntl : List (String × List Char)) (enh : String → Option String) :
    List String → Option (List (List Char))
  | [] => some []
  | n :: rest =>
    let ls := lettersFor ntl enh n
    if ls = [] then none
    else
      match collectLetters ntl enh rest with
      | none => none
      | some t => some (ls :: t)

/-- Prepending each element of `l` to each member of `rest`, in order:
the one-position layer of `itertools.product`. -/
def prodCons : List Char → List (List Char) → List (List Char)
  | [], _ => []
  | c :: cs, rest => rest.map (fun t => c :: t) ++ prodCons cs rest

/-- `itertools.product(*possible_letters)` as a list, leftmost position
varying slowest, exactly the iteration order of itertools.product. -/
def product : List (List Char) → List (List Char)
  | [] => [[]]
  | l :: ls => prodCons l (product ls)

/-- Embedding of `decode_melody` (decoder.py lines 164-186): the possible
letter sequences of the melody, or `[]` when some note resolves to no
letters. -/
def decode_melody (ntl : List (String × List Char)) (enh : String → Option String)
    (melody : List String) : List (List Char) :=
  match collectLetters ntl enh melody with
  | none => []
  | some ls => product ls

theorem collectLetters_eq_none (ntl : List (String × List Char))
    (enh : String → Option String) :
    ∀ melody : List String, (∃ n ∈ melody, lettersFor ntl enh n = []) →
      collectLetters ntl enh melody = none := by
  intro melody
  induction melody with
  | nil => intro ⟨n, hn, _⟩; exact absurd hn (List.not_mem_nil _)
  | cons m rest ih =>
    intro ⟨n, hn, hempty⟩
    unfold collectLetters
    by_cases hm : lettersFor ntl enh m = []
    · rw [if_pos hm]
    · rw [if_neg hm]
      have hnr : n ∈ rest := by
        rcases List.mem_cons.mp hn with h | h
        · exact absurd (h ▸ hempty) hm
        · exact h
      rw [ih ⟨n, hnr, hempty⟩]

theorem collectLetters_eq_some (ntl : List (String × List Char))
    (enh : String → Option String) :
    ∀ melody : List String, (∀ n ∈ melody, lettersFor ntl enh n ≠ []) →
      collectLetters ntl enh melody = some (melody.map (lettersFor ntl enh)) := by
  intro melody
  induction melody with
  | nil => intro _; rfl
  | cons m rest ih =>
    intro h
    unfold collectLetters
    rw [if_neg (h m (List.mem_cons_self _ _))]
    rw [ih (fun n hn => h n (List.mem_cons_of_mem _ hn))]
    rfl

theorem prodCons_length (l : List Char) (rest : List (List Char)) :
    (prodCons l rest).length = l.length * rest.length := by
  induction l with
  | nil => simp [prodCons]
  | cons c cs ih =>
    simp [prodCons, ih]
    ring

theorem product_length (ls : List (List Char)) :
    (product ls).length = (ls.map List.length).prod := by
  induction ls with
  | nil => rfl
  | cons l ls ih =>
    simp [product, prodCons_length, ih]

theorem mem_prodCons (l : List Char) (rest : List (List Char)) (t : List Char) :
    t ∈ prodCons l rest → ∃ c ∈ l, ∃ u ∈ rest, t = c :: u := by
  induction l with
  | nil => intro h; exact absurd h (List.not_mem_nil _)
  | cons c cs ih =>
    intro h
    rw [prodCons, List.mem_append] at h
    rcases h with h | h
    · obtain ⟨u, hu, ht⟩ := List.mem_map.mp h
      exact ⟨c, List.mem_cons_self _ _, u, hu, ht.symm⟩
    · obtain ⟨c', hc', u, hu, ht⟩ := ih h
      exact ⟨c', List.mem_cons_of_mem _ hc', u, hu, ht⟩

theorem mem_product_length (ls : List (List Char)) :
    ∀ t ∈ product ls, t.length = ls.length := by
  induction ls with
  | nil =>
    intro t ht
    have : t = [] := by simpa [product] using ht
    simp [this]
  | cons l ls ih =>
    intro t ht
    obtain ⟨c, _, u, hu, htcu⟩ := mem_prodCons l (product ls) t ht
    subst htcu
    simp [ih u hu]

theorem prodCons_sorted (l : List Char) (rest : List (List Char))
    (hl : List.Sorted (· < ·) l)
    (hrest : List.Sorted (List.Lex (· < ·)) rest) :
    List.Sorted (List.Lex (· < ·)) (prodCons l rest) := by
  induction l with
  | nil => exact List.Pairwise.nil
  | cons c cs ih =>
    rw [List.sorted_cons] at hl
    rw [prodCons]
    unfold List.Sorted
    rw [List.pairwise_append]
    refine ⟨?_, ih hl.2, ?_⟩
    · rw [List.pairwise_map]
      exact hrest.imp (fun h => List.Lex.cons h)
    · intro a ha b hb
      obtain ⟨u, _, hau⟩ := List.mem_map.mp ha
      obtain ⟨c', hc', v, _, hbv⟩ := mem_prodCons cs rest b hb
      rw [← hau, hbv]
      exact List.Lex.rel (hl.1 c' hc')

theorem product_sorted (ls : List (List Char))
    (h : ∀ l ∈ ls, List.Sorted (· < ·) l) :
    List.Sorted (List.Lex (· < ·)) (product ls) := by
  induction ls with
  | nil => simp [product]
  | cons l ls ih =>
    rw [product]
    exact prodCons_sorted l (product ls) (h l (List.mem_cons_self _ _))
      (ih (fun l' hl' => h l' (List.mem_cons_of_mem _ hl')))

/-! ### Scale mapping (create_letter_note_mapping, reverse_mapping) -/

/-- The letters, `string.ascii_lowercase`. -/
def ascii_lowercase : List Char :=
  ['a', 'b', 'c', 'd', 'e', 'f', 'g', 'h', 'i', 'j', 'k', 'l', 'm',
   'n', 'o', 'p', 'q', 'r', 's', 't', 'u', 'v', 'w', 'x', 'y', 'z']

/-- Embedding of `create_letter_note_mapping` (decoder.py lines 126-150).
The scale object's `pitchFromDegree` is the external music21 call and enters
as the parameter `pfd`, which the loop consults at degree
`degrees[idx % 7] = idx % 7 + 1`.  Because the 26 letter keys are pairwise
distinct, the `while len(mapping) < 26` loop inserts a fresh key on every
iteration and runs exactly for `idx = 0 .. 25`; the insertion-ordered dict is
the association list in insertion order.  (The exception branch that returns
`{}` is not taken for a total `pfd` and is outside this model.) -/
def create_letter_note_mapping (pfd : Nat → String) : List (Char × String) :=
  (List.range 26).map (fun idx => (ascii_lowercase.getD idx 'a', pfd (idx % 7 + 1)))

/-- One step of `reverse_mapping`'s loop: append `letter` to the group of
`pitch_name`, creating the group at the end on first sight (dict insertion
order). -/
def addLetter : List (String × List Char) → String → Char → List (String × List Char)
  | [], pn, c => [(pn, [c])]
  | (k, ls) :: rest, pn, c =>
    if k = pn then (k, ls ++ [c]) :: rest else (k, ls) :: addLetter rest pn c

/-- Embedding of `reverse_mapping` (decoder.py lines 152-162): group the
letters by pitch name, keys in first-appearance order, letters in insertion
order within each group. -/
def reverse_mapping (mapping : List (Char × String)) : List (String × List Char) :=
  mapping.foldl (fun acc lp => addLetter acc lp.2 lp.1) []

/-! ### Phrase validation and the orchestrator -/

/-- Embedding of `is_valid_phrase` (decoder.py lines 112-124): the phrase is
non-empty, single-character words are only "a"/"i", and every word is in the
english or name set. -/
def is_valid_phrase (phrase : List Word) (all_names english_words : List Word) : Bool :=
  if phrase = [] then false
  else phrase.all (fun w =>
    !(w.length = 1 && !(w = ['a'] || w = ['i'])) &&
    (w ∈ english_words || w ∈ all_names))

/-- The externally visible result unit: phrase text (words joined by a
space), root, scale name and word count. -/
structure ResultRecord where
  phrase : List Char
  decoded_root_note : String
  decoded_scale : String
  num_words : Nat
  deriving DecidableEq, Repr

/-- A (root, mode) work item: root name, mode name, and the scale's
`pitchFromDegree` behaviour (the external music21 scale object). -/
structure RootMode where
  root : String
  modeName : String
  pfd : Nat → String

/-- Python `' '.join(phrase)`. -/
def joinWords : List Word → List Char
  | [] => []
  | [w] => w
  | w :: rest => w ++ ' ' :: joinWords rest

/-- Embedding of `process_root_mode` (decoder.py lines 207-238) without the
shared `single_words` sink (which lives in the worker process and never
reaches the parent): build the mapping, expand the melody and keep every
segmented phrase that is non-empty and valid. -/
def process_root_mode (rm : RootMode) (melody_notes : List String)
    (words_set prefixes_set : List Word) (max_word_length : Nat)
    (all_names english_words : List Word) (enh : String → Option String) :
    List ResultRecord :=
  let mapping := create_letter_note_mapping rm.pfd
  let note_letter_map := reverse_mapping mapping
  let decoded_combinations := decode_melody note_letter_map enh melody_notes
  decoded_combinations.foldl (fun results decoded_chars =>
    match segment_into_words decoded_chars words_set prefixes_set max_word_length with
    | none => results
    | some phrase =>
      if phrase ≠ [] ∧ is_valid_phrase phrase all_names english_words then
        results ++ [{ phrase := joinWords phrase, decoded_root_note := rm.root,
                      decoded_scale := rm.modeName, num_words := phrase.length }]
      else results) []

/-- Dict update of decoder.py lines 298-301: if the phrase key exists, keep
the old record unless the new one has strictly fewer words; otherwise append
the record as a new key. -/
def upsertByPhrase (r : ResultRecord) : List ResultRecord → List ResultRecord
  | [] => [r]
  | e :: es =>
    if e.phrase = r.phrase then
      (if r.num_words < e.num_words then r else e) :: es
    else e :: upsertByPhrase r es

/-- The deduplication loop of decoder.py lines 297-301 (`unique_results`
keyed by phrase text, insertion-ordered). -/
def dedupByPhrase (rs : List ResultRecord) : List ResultRecord :=
  rs.foldl (fun acc r => upsertByPhrase r acc) []

/-- Python string comparison `<=` on our `List Char` phrases (code-point
lexicographic). -/
def strLe : List Char → List Char → Bool
  | [], _ => true
  | c :: cs, d :: ds => if c < d then true else if d < c then false else strLe cs ds
  | _ :: _, [] => false

/-- Stable insertion of a record into a list sorted by phrase text. -/
def insertByPhrase (r : ResultRecord) : List ResultRecord → List ResultRecord
  | [] => [r]
  | e :: es => if strLe r.phrase e.phrase then r :: e :: es else e :: insertByPhrase r es

/-- `sorted(unique_results.values(), key=lambda x: x['phrase'])`
(decoder.py line 305). -/
def sortByPhrase (rs : List ResultRecord) : List ResultRecord :=
  rs.foldr insertByPhrase []

/-- The reporting step of decoder.py lines 296-308: deduplicate by phrase
text keeping the lowest word count, then print ALL surviving records sorted
by phrase text. -/
def report_best_phrases (flat_results : List ResultRecord) : List ResultRecord :=
  sortByPhrase (dedupByPhrase flat_results)

/-- Dict update of audiocipher_decoder.py lines 263-265, keyed by the
(phrase, root, scale) triple. -/
def upsertByTriple (r : ResultRecord) : List ResultRecord → List ResultRecord
  | [] => [r]
  | e :: es =>
    if e.phrase = r.phrase ∧ e.decoded_root_note = r.decoded_root_note ∧
        e.decoded_scale = r.decoded_scale then
      (if r.num_words < e.num_words then r else e) :: es
    else e :: upsertByTriple r es

/-- The deduplication loop of audiocipher_decoder.py lines 261-265. -/
def dedupByTriple (rs : List ResultRecord) : List ResultRecord :=
  rs.foldl (fun acc r => upsertByTriple r acc) []

/-- The reporting step of audiocipher_decoder.py lines 267-272: deduplicate
by (phrase, root, scale), then keep exactly the records whose word count is
the minimum, in dict-value order (no sort). -/
def report_best_phrases_ac (flat_results : List ResultRecord) : List ResultRecord :=
  match dedupByTriple flat_results with
  | [] => []
  | r0 :: rest =>
    let min_num_words := rest.foldl (fun m r => min m r.num_words) r0.num_words
    (r0 :: rest).filter (fun r => r.num_words = min_num_words)

/-- Python `.upper()` on a note token. -/
def strUpper (s : String) : String := s.map Char.toUpper

/-- The 12 canonical note names of decoder.py lines 246-250 (the source
writes them as one set literal; the appends here build the same list). -/
def valid_note_names : List String :=
  ["C", "C#"] ++ ["D", "D#"] ++ ["E", "F"] ++ ["F#", "G"] ++ ["G#", "A"] ++ ["A#", "B"]

/-- The melody validation loop of decoder.py lines 253-267: each note must be
canonical, or have a canonical enharmonic replacement; otherwise the run
aborts (modelled as `none`). -/
def validateNotes (enh : String → Option String) : List String → Option (List String)
  | [] => some []
  | n :: rest =>
    let fixed : Option String :=
      if n ∈ valid_note_names then some n
      else
        match enh n with
        | some e => if e ∈ valid_note_names then some e else none
        | none => none
    match fixed with
    | none => none
    | some m =>
      match validateNotes enh rest with
      | none => none
      | some ms => some (m :: ms)

/-- Embedding of `decode_tone_row_parallel` (decoder.py lines 240-318):
uppercase and validate the melody tokens (`none` = the aborting early
`return`), process every (root, mode) work item, flatten, and report the
deduplicated records sorted by phrase (logging and printing omitted; the
worker pool is order-preserving `map`, whose result order is independent of
scheduling). -/
def decode_tone_row_parallel (melody_tokens : List String) (root_modes : List RootMode)
    (words_set prefixes_set : List Word) (max_word_length : Nat)
    (all_names english_words : List Word) (enh : String → Option String) :
    Option (List ResultRecord) :=
  let melody_notes := melody_tokens.map strUpper
  match validateNotes enh melody_notes with
  | none => none
  | some notes =>
    let all_results := root_modes.map (fun rm =>
      process_root_mode rm notes words_set prefixes_set max_word_length
        all_names english_words enh)
    let flat_results := all_results.flatten
    some (report_best_phrases flat_results)

/-- The argument wiring of `main` (decoder.py lines 344-388) restricted to
the segmentation path: the prefix set and the maximum word length are built
from the union `english_words ∪ all_names`, but the word set passed to
`segment_into_words` is `english_words` alone. -/
def main_segment_call (english_words all_names : List Word) (decoded_chars : List Char) :
    Option (List Word) :=
  let combined_words := english_words ++ all_names
  segment_into_words decoded_chars english_words (build_prefix_set combined_words)
    (maxWordLength combined_words)

/-! ### Claim theorems -/

/-- C1: For every character string s, word set W, and max_word_length equal
to the maximum length of W's members, segment_into_words(s, W, P,
max_word_length) returns None exactly when s has no decomposition into
members of W, and otherwise returns a list of members of W whose word count
is minimal among all decompositions of s into members of W. -/
theorem segment_into_words_minimal_word_break (s : List Char) (W P : List Word) :
    (segment_into_words s W P (maxWordLength W) = none ↔ ¬ ∃ q, IsDecomp s W q) ∧
    ∀ p, segment_into_words s W P (maxWordLength W) = some p →
      IsDecomp s W p ∧ ∀ q, IsDecomp s W q → p.length ≤ q.length :=
  ⟨segment_none_iff s W P,
   fun p hp => ⟨segment_sound s W P _ p hp, segment_minimal s W P p hp⟩⟩

theorem segment_into_words_minimal_word_break_witness :
    IsDecomp ['a', 'b'] [['a'], ['b'], ['a', 'b']] [['a', 'b']] ∧
      List.length ([['a', 'b']] : List Word) ≤ List.length ([['a'], ['b']] : List Word) :=
  ⟨((segment_into_words_minimal_word_break ['a', 'b'] [['a'], ['b'], ['a', 'b']] []).2
      [['a', 'b']] (by decide)).1,
   ((segment_into_words_minimal_word_break ['a', 'b'] [['a'], ['b'], ['a', 'b']] []).2
      [['a', 'b']] (by decide)).2 [['a'], ['b']] ⟨by decide, by decide⟩⟩

/-- C7: For every string s, word set, prefix set, and max word length: if
segment_into_words returns a phrase (not None), the concatenation of the
phrase's words equals s exactly, with no characters dropped, added, or
reordered. -/
theorem segment_into_words_roundtrip (s : List Char) (W P : List Word) (L : Nat)
    (p : List Word) (h : segment_into_words s W P L = some p) :
    p.flatten = s :=
  (segment_sound s W P L p h).2

theorem segment_into_words_roundtrip_witness :
    List.flatten [['c', 'a', 't'], ['s']] = ['c', 'a', 't', 's'] :=
  segment_into_words_roundtrip ['c', 'a', 't', 's'] [['c', 'a', 't'], ['s']] [] 4
    [['c', 'a', 't'], ['s']] (by decide)

/-- C8: Segmentation is monotone in the lexicon: for every string s and word
sets W ⊆ W2 (each used with its own maximum word length), if
segment_into_words returns a phrase of k words under W then under W2 it
returns a phrase of at most k words; in particular a string segmentable
under W is never unsegmentable under W2. -/
theorem segment_into_words_monotone (s : List Char) (W W2 P P2 : List Word)
    (hsub : ∀ w : Word, w ∈ W → w ∈ W2) (p : List Word)
    (h : segment_into_words s W P (maxWordLength W) = some p) :
    ∃ p2, segment_into_words s W2 P2 (maxWordLength W2) = some p2 ∧
      p2.length ≤ p.length := by
  have hd : IsDecomp s W p := segment_sound s W P _ p h
  exact segment_complete s W2 P2 p ⟨fun w hw => hsub w (hd.1 w hw), hd.2⟩

theorem segment_into_words_monotone_witness :
    ∃ p2, segment_into_words ['a', 'b'] [['a'], ['b'], ['a', 'b']] []
        (maxWordLength [['a'], ['b'], ['a', 'b']]) = some p2 ∧
      p2.length ≤ List.length ([['a'], ['b']] : List Word) :=
  segment_into_words_monotone ['a', 'b'] [['a'], ['b']] [['a'], ['b'], ['a', 'b']] [] []
    (by decide) [['a'], ['b']] (by decide)

/-- C9: The prefixes_set argument has no effect on segmentation output: for
every string, word set, and max word length, and any two prefix sets P1 and
P2, segment_into_words returns identical results under P1 and P2, and its
result coincides with that of the prefix-free segmenter in melody_decoder.py
when that segmenter's two word sets union to the same word set. -/
theorem segment_into_words_prefix_set_irrelevant (s : List Char)
    (W P1 P2 E N : List Word) (L : Nat) :
    segment_into_words s W P1 L = segment_into_words s W P2 L ∧
    ((∀ w : Word, w ∈ W ↔ (w ∈ E ∨ w ∈ N)) →
      segment_into_words s W P1 L = segment_into_words_md s E N L) :=
  ⟨segment_P_irrel s W P1 P2 L,
   fun hiff => (segment_P_irrel s W P1 E L).trans (segment_eq_md s W E N L hiff)⟩

theorem segment_into_words_prefix_set_irrelevant_witness :
    segment_into_words ['h', 'i'] [['h', 'i']] [['x']] 2 =
      segment_into_words_md ['h', 'i'] [['h', 'i']] [] 2 :=
  (segment_into_words_prefix_set_irrelevant ['h', 'i'] [['h', 'i']] [['x']] [['y']]
    [['h', 'i']] [] 2).2 (by intro w; simp)

/-- C10: For every word set W whose single-character members are only "a"
and "i", with W contained in english_words ∪ all_names, every non-empty
phrase returned by segment_into_words over W satisfies is_valid_phrase:
the validation step can never reject a phrase the segmenter produced. -/
theorem segment_into_words_phrase_valid (s : List Char) (W P E N : List Word) (L : Nat)
    (h1 : ∀ w ∈ W, w.length = 1 → w = ['a'] ∨ w = ['i'])
    (h2 : ∀ w ∈ W, w ∈ E ∨ w ∈ N)
    (p : List Word) (hp : segment_into_words s W P L = some p) (hne : p ≠ []) :
    is_valid_phrase p N E = true := by
  obtain ⟨hmem, _⟩ := segment_sound s W P L p hp
  unfold is_valid_phrase
  rw [if_neg hne, List.all_eq_true]
  intro w hw
  have hwW := hmem w hw
  have hEN := h2 w hwW
  have hsingle := h1 w hwW
  simp only [Bool.and_eq_true, Bool.not_eq_true', Bool.and_eq_false_iff,
    decide_eq_true_eq, decide_eq_false_iff_not, Bool.or_eq_true, not_or]
  constructor
  · by_cases hlen : w.length = 1
    · rcases hsingle hlen with ha | hi
      · subst ha; simp
      · subst hi; simp
    · simp [hlen]
  · exact hEN

theorem segment_into_words_phrase_valid_witness :
    is_valid_phrase [['a'], ['h', 'i']] [['a']] [['h', 'i']] = true :=
  segment_into_words_phrase_valid ['a', 'h', 'i'] [['a'], ['h', 'i']] [] [['h', 'i']]
    [['a']] 3 (by decide) (by decide) [['a'], ['h', 'i']] (by decide) (by decide)

/-- C5: For every note-to-letters inverse mapping and every melody: if some
melody note has an empty letter list after direct lookup and enharmonic
fallback, decode_melody returns an empty sequence (a normal no-candidates
outcome, not an error); otherwise it yields exactly the Cartesian product of
the per-position letter lists — one candidate per combination, each of
length |melody| — and, the per-position lists being alphabetically ordered,
in the induced lexicographic order. -/
theorem decode_melody_cartesian (ntl : List (String × List Char))
    (enh : String → Option String) (melody : List String) :
    ((∃ n ∈ melody, lettersFor ntl enh n = []) →
      decode_melody ntl enh melody = []) ∧
    ((∀ n ∈ melody, lettersFor ntl enh n ≠ []) →
      decode_melody ntl enh melody = product (melody.map (lettersFor ntl enh)) ∧
      (decode_melody ntl enh melody).length =
        (melody.map (fun n => (lettersFor ntl enh n).length)).prod ∧
      (∀ t ∈ decode_melody ntl enh melody, t.length = melody.length) ∧
      ((∀ n ∈ melody, List.Sorted (· < ·) (lettersFor ntl enh n)) →
        List.Sorted (List.Lex (· < ·)) (decode_melody ntl enh melody))) := by
  constructor
  · intro hex
    unfold decode_melody
    rw [collectLetters_eq_none ntl enh melody hex]
  · intro hall
    have hsome : decode_melody ntl enh melody =
        product (melody.map (lettersFor ntl enh)) := by
      unfold decode_melody
      rw [collectLetters_eq_some ntl enh melody hall]
    refine ⟨hsome, ?_, ?_, ?_⟩
    · rw [hsome, product_length, List.map_map]
      rfl
    · rw [hsome]
      intro t ht
      rw [mem_product_length _ t ht, List.length_map]
    · intro hsort
      rw [hsome]
      apply product_sorted
      intro l hl
      obtain ⟨n, hn, hln⟩ := List.mem_map.mp hl
      exact hln ▸ hsort n hn

theorem decode_melody_cartesian_witness :
    decode_melody [("C", ['a', 'h'])] (fun _ => none) ["C", "C"] =
      product [['a', 'h'], ['a', 'h']] ∧
    List.Sorted (List.Lex (· < ·))
      (decode_melody [("C", ['a', 'h'])] (fun _ => none) ["C", "C"]) :=
  ⟨((decode_melody_cartesian [("C", ['a', 'h'])] (fun _ => none) ["C", "C"]).2
      (by decide)).1,
   ((decode_melody_cartesian [("C", ['a', 'h'])] (fun _ => none) ["C", "C"]).2
      (by decide)).2.2.2 (by decide)⟩

/-- The `pitchFromDegree` behaviour of a scale whose seven degrees (1-7) have
the given pitch names: the shape of the external music21 scale object as
`create_letter_note_mapping` consults it.  `degName7` is only ever applied
to degrees 1..7 by the mapping loop. -/
def degName7 (n1 n2 n3 n4 n5 n6 n7 : String) : Nat → String
  | 1 => n1
  | 2 => n2
  | 3 => n3
  | 4 => n4
  | 5 => n5
  | 6 => n6
  | 7 => n7
  | _ => n1

/-- C6: For every (root, mode) pair in the fixed catalog — whose seven scale
degrees yield pairwise distinct pitch names, here the seven abstract names
n1..n7 — create_letter_note_mapping assigns all 26 lowercase letters, and
reverse_mapping of the result has exactly 7 keys whose letter groups have
sizes in 3..4 summing to 26: exactly 5 pitch classes receive 4 letters and
2 receive 3. -/
theorem scale_mapping_letter_groups (n1 n2 n3 n4 n5 n6 n7 : String)
    (h12 : n1 ≠ n2) (h13 : n1 ≠ n3) (h14 : n1 ≠ n4) (h15 : n1 ≠ n5)
    (h16 : n1 ≠ n6) (h17 : n1 ≠ n7) (h23 : n2 ≠ n3) (h24 : n2 ≠ n4)
    (h25 : n2 ≠ n5) (h26 : n2 ≠ n6) (h27 : n2 ≠ n7) (h34 : n3 ≠ n4)
    (h35 : n3 ≠ n5) (h36 : n3 ≠ n6) (h37 : n3 ≠ n7) (h45 : n4 ≠ n5)
    (h46 : n4 ≠ n6) (h47 : n4 ≠ n7) (h56 : n5 ≠ n6) (h57 : n5 ≠ n7)
    (h67 : n6 ≠ n7) :
    (create_letter_note_mapping (degName7 n1 n2 n3 n4 n5 n6 n7)).map Prod.fst =
      ascii_lowercase ∧
    reverse_mapping (create_letter_note_mapping (degName7 n1 n2 n3 n4 n5 n6 n7)) =
      [(n1, ['a', 'h', 'o', 'v']), (n2, ['b', 'i', 'p', 'w']),
       (n3, ['c', 'j', 'q', 'x']), (n4, ['d', 'k', 'r', 'y']),
       (n5, ['e', 'l', 's', 'z']), (n6, ['f', 'm', 't']),
       (n7, ['g', 'n', 'u'])] ∧
    (reverse_mapping (create_letter_note_mapping (degName7 n1 n2 n3 n4 n5 n6 n7))).length
      = 7 ∧
    (reverse_mapping (create_letter_note_mapping
      (degName7 n1 n2 n3 n4 n5 n6 n7))).map (fun g => g.2.length) =
      [4, 4, 4, 4, 4, 3, 3] ∧
    ((reverse_mapping (create_letter_note_mapping
      (degName7 n1 n2 n3 n4 n5 n6 n7))).map (fun g => g.2.length)).sum = 26 := by
  have hrev : reverse_mapping (create_letter_note_mapping
      (degName7 n1 n2 n3 n4 n5 n6 n7)) =
      [(n1, ['a', 'h', 'o', 'v']), (n2, ['b', 'i', 'p', 'w']),
       (n3, ['c', 'j', 'q', 'x']), (n4, ['d', 'k', 'r', 'y']),
       (n5, ['e', 'l', 's', 'z']), (n6, ['f', 'm', 't']),
       (n7, ['g', 'n', 'u'])] := by
    have hc : create_letter_note_mapping (degName7 n1 n2 n3 n4 n5 n6 n7) =
        [('a', n1), ('b', n2), ('c', n3), ('d', n4), ('e', n5), ('f', n6), ('g', n7),
         ('h', n1), ('i', n2), ('j', n3), ('k', n4), ('l', n5), ('m', n6), ('n', n7),
         ('o', n1), ('p', n2), ('q', n3), ('r', n4), ('s', n5), ('t', n6), ('u', n7),
         ('v', n1), ('w', n2), ('x', n3), ('y', n4), ('z', n5)] := rfl
    rw [hc]
    simp only [reverse_mapping, List.foldl_cons, List.foldl_nil, addLetter,
      h12, h13, h14, h15, h16, h17, h23, h24, h25, h26, h27, h34, h35, h36, h37,
      h45, h46, h47, h56, h57, h67, if_pos, if_neg, ite_true, ite_false]
    rfl
  refine ⟨rfl, hrev, ?_, ?_, ?_⟩
  · rw [hrev]
    rfl
  · rw [hrev]
    rfl
  · rw [hrev]
    rfl

theorem scale_mapping_letter_groups_witness :
    reverse_mapping (create_letter_note_mapping
      (degName7 "C" "D" "E" "F" "G" "A" "B")) =
      [("C", ['a', 'h', 'o', 'v']), ("D", ['b', 'i', 'p', 'w']),
       ("E", ['c', 'j', 'q', 'x']), ("F", ['d', 'k', 'r', 'y']),
       ("G", ['e', 'l', 's', 'z']), ("A", ['f', 'm', 't']),
       ("B", ['g', 'n', 'u'])] ∧
    ((reverse_mapping (create_letter_note_mapping
      (degName7 "C" "D" "E" "F" "G" "A" "B"))).map (fun g => g.2.length)).sum = 26 :=
  ⟨(scale_mapping_letter_groups "C" "D" "E" "F" "G" "A" "B"
      (by decide) (by decide) (by decide) (by decide) (by decide) (by decide)
      (by decide) (by decide) (by decide) (by decide) (by decide) (by decide)
      (by decide) (by decide) (by decide) (by decide) (by decide) (by decide)
      (by decide) (by decide) (by decide)).2.1,
   (scale_mapping_letter_groups "C" "D" "E" "F" "G" "A" "B"
      (by decide) (by decide) (by decide) (by decide) (by decide) (by decide)
      (by decide) (by decide) (by decide) (by decide) (by decide) (by decide)
      (by decide) (by decide) (by decide) (by decide) (by decide) (by decide)
      (by decide) (by decide) (by decide)).2.2.2.2⟩

/-- A concrete (root, mode) work item: C Major with music21's degree names
C D E F G A B. -/
def cMajorRootMode : RootMode :=
  { root := "C", modeName := "Major", pfd := degName7 "C" "D" "E" "F" "G" "A" "B" }

/-- C4 counterexample: for the empty melody (zero note tokens), the run is
NOT aborted by a precondition error: decode_tone_row_parallel proceeds past
validation and returns the normal zero-result report `some []` rather than
the aborting outcome `none`. -/
theorem empty_melody_not_aborted :
    decode_tone_row_parallel [] [cMajorRootMode] [['a']] [] 1 [] [['a']]
        (fun _ => none) = some [] ∧
    decode_tone_row_parallel [] [cMajorRootMode] [['a']] [] 1 [] [['a']]
        (fun _ => none) ≠ none := by
  constructor
  · rfl
  · intro h
    exact Option.noConfusion h

/-- C4 (amended): for the empty melody the run proceeds normally — the
validation loop accepts the empty token list, every (root, mode) work item
contributes zero records, and the engine reports zero results; no EmptyMelody
precondition error exists in the code. -/
theorem decode_tone_row_empty_melody (root_modes : List RootMode)
    (W P : List Word) (L : Nat) (names english : List Word)
    (enh : String → Option String) :
    decode_tone_row_parallel [] root_modes W P L names english enh = some [] := by
  have hflat : ∀ l : List RootMode,
      (l.map (fun _ => ([] : List ResultRecord))).flatten = [] := by
    intro l
    induction l with
    | nil => rfl
    | cons a l ih => simp [ih]
  show some (report_best_phrases
      ((root_modes.map (fun _ => ([] : List ResultRecord))).flatten)) = some []
  rw [hflat root_modes]
  rfl

/-- A one-word result record with phrase text "a". -/
def recA : ResultRecord :=
  { phrase := ['a'], decoded_root_note := "C", decoded_scale := "Major", num_words := 1 }

/-- A two-word result record with phrase text "b c". -/
def recBC : ResultRecord :=
  { phrase := ['b', ' ', 'c'], decoded_root_note := "C", decoded_scale := "Major",
    num_words := 2 }

/-- The phrase "hi" decoded in C Major. -/
def recHiC : ResultRecord :=
  { phrase := ['h', 'i'], decoded_root_note := "C", decoded_scale := "Major",
    num_words := 1 }

/-- The phrase "hi" decoded in D Dorian: same phrase text, different scale. -/
def recHiD : ResultRecord :=
  { phrase := ['h', 'i'], decoded_root_note := "D", decoded_scale := "Dorian",
    num_words := 1 }

/-- C2 evaluated at the failing inputs.  decoder.py's reporting step
(lines 296-308) deduplicates by phrase text but applies no minimum-word-count
filter: with collected records "a" (1 word) and "b c" (2 words) it reports
both, although the global minimum over the deduplicated set is 1.
audiocipher_decoder.py's reporting step (lines 260-272) filters by the
minimum but deduplicates by the (phrase, root, scale) triple, not by
phrase text: two records with identical phrase text "hi" under different
scales are both reported. -/
theorem report_steps_at_failing_inputs :
    report_best_phrases [recA, recBC] = [recA, recBC] ∧
    recA.num_words = 1 ∧ recBC.num_words = 2 ∧
    report_best_phrases_ac [recHiC, recHiD] = [recHiC, recHiD] ∧
    recHiC.phrase = recHiD.phrase ∧ recHiC ≠ recHiD := by
  decide

/-- C3 evaluated at the failing input.  `main` (decoder.py lines 380-388)
passes `words_set = english_words` to the segmenter while building the prefix
set and maximum word length from the union with the names; the prefix branch
is a no-op, so a candidate equal to the proper name "bob" (not an English
word) is not segmentable through main's wiring, although it is segmentable
over the combined dictionary/name set. -/
theorem main_segmenter_excludes_names :
    main_segment_call [] [['b', 'o', 'b']] ['b', 'o', 'b'] = none ∧
    segment_into_words ['b', 'o', 'b'] ([] ++ [['b', 'o', 'b']])
      (build_prefix_set ([] ++ [['b', 'o', 'b']]))
      (maxWordLength ([] ++ [['b', 'o', 'b']])) = some [['b', 'o', 'b']] := by
  decide
